import Mathlib

/-
  Verification of `compose_to_quadlet.py` (Keyruu/compose-to-quadlet-nix)
  against its natural-language specification.

  The Python program is a one-shot converter from Docker Compose YAML to a
  quadlet-nix configuration.  Its core computations are embedded below as
  executable Lean functions over `List Char` / `String` and a small model
  `PyVal` of the YAML/Python scalar-and-container values the script inspects.

  Regex-based parts (`_find_env_vars`, `_replace_env_vars`) are embedded as
  character scanners implementing the exact matching semantics of the two
  Python regular expressions, including greediness and leftmost,
  non-overlapping `re.sub`/`re.findall` scanning.
-/

namespace ComposeToQuadlet

/-! ## Model of the Python/YAML values the converter inspects -/

/-- A Python value as produced by `yaml.safe_load`, restricted to the shapes
`compose_to_quadlet.py` inspects: `None`, booleans, integers, strings, lists
and string-keyed dicts (dicts keep insertion order, as Python dicts do). -/
inductive PyVal where
  | none
  | bool (b : Bool)
  | int (n : Int)
  | str (s : String)
  | list (items : List PyVal)
  | dict (entries : List (String × PyVal))

/-- Python truthiness (`bool(v)`) for the modelled values. -/
def truthy : PyVal → Bool
  | PyVal.none => false
  | PyVal.bool b => b
  | PyVal.int n => n != 0
  | PyVal.str s => s != ""
  | PyVal.list items => !items.isEmpty
  | PyVal.dict entries => !entries.isEmpty

/-- Python `d.get(k)` on a dict modelled as an assoc list: the value of the
first entry with key `k`, or `None` when absent. -/
def dictGet (entries : List (String × PyVal)) (k : String) : PyVal :=
  (List.lookup k entries).getD PyVal.none

/-- Python `d.get(k, default)`. -/
def dictGetD (entries : List (String × PyVal)) (k : String) (d : PyVal) : PyVal :=
  (List.lookup k entries).getD d

/-! ## The two placeholder regexes of `_replace_env_vars` / `_find_env_vars`

`_replace_env_vars` (lines 275-293) runs two `re.sub` passes in order:

  pass 1 : `\$\{([^}]+):-([^}]+)\}`   (reference with default)
  pass 2 : `\$\{([^}]+)\}`            (bare reference)

Both character classes exclude `}` only, so a match always extends from a
`${` to the first following `}`.  In pass 1 group 1 is greedy, hence the
split between group 1 and group 2 sits at the *last* occurrence of `:-`
inside the brace content that leaves group 2 non-empty (and backtracking
rejects an empty group 1).  The scanners below implement exactly that. -/

/-- The greedy split performed by `([^}]+):-([^}]+)` inside the brace
content: the rightmost occurrence of `:-` that leaves a non-empty right part
(group 2); the left part (group 1) may come out empty here and is rejected
by the caller, matching the requirement of the regex that group 1 be non-empty. -/
def splitDef : List Char → Option (List Char × List Char)
  | [] => Option.none
  | c :: rest =>
    match splitDef rest with
    | Option.some (g1, g2) => Option.some (c :: g1, g2)
    | Option.none =>
      if c = ':' then
        match rest with
        | '-' :: g2 => if g2.isEmpty then Option.none else Option.some ([], g2)
        | _ => Option.none
      else Option.none

/-- Match of the bare-reference pattern `\$\{([^}]+)\}` at the head of the
input: returns the brace content (group 1) and the text after the closing
brace.  The content is the maximal run of non-`}` characters, and must be
non-empty and followed by `}`. -/
def matchBare (l : List Char) : Option (List Char × List Char) :=
  match l with
  | '$' :: '{' :: t =>
    let content := t.takeWhile (fun c => c ≠ '}')
    if content.isEmpty then Option.none
    else
      match t.drop content.length with
      | '}' :: after => Option.some (content, after)
      | _ => Option.none
  | _ => Option.none

/-- Match of the with-default pattern `\$\{([^}]+):-([^}]+)\}` at the head of
the input: returns group 1, group 2 and the text after the closing brace. -/
def matchDef (l : List Char) : Option (List Char × List Char × List Char) :=
  match l with
  | '$' :: '{' :: t =>
    let content := t.takeWhile (fun c => c ≠ '}')
    match t.drop content.length with
    | '}' :: after =>
      match splitDef content with
      | Option.some (g1, g2) =>
        if g1.isEmpty then Option.none else Option.some (g1, g2, after)
      | Option.none => Option.none
    | _ => Option.none
  | _ => Option.none

/-- `replace_var` for the two-group pass (line 277-286 of the source, called
from the pass-1 `re.sub`): a name found in `self.variables` is normalized to
`${name}`; otherwise the (always non-empty, hence truthy) default text is
substituted. -/
def replDef (keys : List String) (g1 g2 : List Char) : List Char :=
  if (⟨g1⟩ : String) ∈ keys then '$' :: '{' :: (g1 ++ ['}']) else g2

/-- `replace_var` for the one-group pass (pass-2 `re.sub`): with no default
group, both the in-table and the fallthrough branch of the Python function
produce the same normalized `${name}` text. -/
def replBare (keys : List String) (name : List Char) : List Char :=
  if (⟨name⟩ : String) ∈ keys then '$' :: '{' :: (name ++ ['}'])
  else '$' :: '{' :: (name ++ ['}'])

/-- Pass 1 of `_replace_env_vars`: leftmost, non-overlapping `re.sub` of the
with-default pattern.  `fuel` bounds the recursion; every step consumes at
least one character of the input, so `fuel = l.length` always suffices. -/
def sub1F (keys : List String) : Nat → List Char → List Char
  | _, [] => []
  | 0, l => l
  | fuel + 1, c :: rest =>
    match matchDef (c :: rest) with
    | Option.some (g1, g2, after) => replDef keys g1 g2 ++ sub1F keys fuel after
    | Option.none => c :: sub1F keys fuel rest

/-- Pass 2 of `_replace_env_vars`: leftmost, non-overlapping `re.sub` of the
bare-reference pattern. -/
def sub2F (keys : List String) : Nat → List Char → List Char
  | _, [] => []
  | 0, l => l
  | fuel + 1, c :: rest =>
    match matchBare (c :: rest) with
    | Option.some (name, after) => replBare keys name ++ sub2F keys fuel after
    | Option.none => c :: sub2F keys fuel rest

/-- `_replace_env_vars` (lines 275-293): the with-default pass runs first on
the whole string, then the bare-reference pass runs on its output.  Only the
key set of `self.variables` matters for replacement, so the table is passed
as its list of keys. -/
def replaceEnvVars (keys : List String) (s : String) : String :=
  let l1 := sub1F keys s.data.length s.data
  ⟨sub2F keys l1.length l1⟩

/-- Whether the with-default pattern matches anywhere in the text (i.e.
whether the pass-1 `re.sub` would rewrite anything). -/
def hasDefMatch : List Char → Bool
  | [] => false
  | c :: rest => (matchDef (c :: rest)).isSome || hasDefMatch rest

/-- Embedding of `_find_env_vars` (lines 90-92), the findall over the pattern
`\$\{([^}]+)(?::-[^}]*)?\}`.
Group 1 (`[^}]+`) is greedy and cannot cross `}`, so on any successful match
it consumes the whole run of non-`}` characters after `${`; the optional
group `(?::-[^}]*)?` then faces the closing `}` and matches empty.  Group 1
is therefore always the entire brace content — the default clause is *not*
stripped — and the match succeeds exactly when the bare-reference pattern
matches.  The scan collects group 1 of each leftmost, non-overlapping match. -/
def findVarsF : Nat → List Char → List String
  | _, [] => []
  | 0, _ => []
  | fuel + 1, c :: rest =>
    match matchBare (c :: rest) with
    | Option.some (name, after) => (⟨name⟩ : String) :: findVarsF fuel after
    | Option.none => findVarsF fuel rest

/-- `_find_env_vars` on a string (the Python function wraps the match list in
`set(...)`; the list below is the underlying `findall` result in order). -/
def findEnvVars (s : String) : List String :=
  findVarsF s.data.length s.data

/-! ## Variable table construction (`_extract_variables`, `_suggest_variable_value`) -/

/-- ASCII lower-casing of one character, as Python `str.lower()` does for the
ASCII range (the only range used by the variable names of the converter). -/
def lowerChar (c : Char) : Char :=
  if 'A' ≤ c ∧ c ≤ 'Z' then Char.ofNat (c.toNat + 32) else c

/-- Python `s.lower()` restricted to ASCII. -/
def lowerString (s : String) : String :=
  ⟨s.data.map lowerChar⟩

/-- The fixed suggestion table of `_suggest_variable_value` (lines 96-104). -/
def suggestionTable : List (String × String) :=
  [ ("IMMICH_VERSION", "\"v1.125.7\"")
  , ("UPLOAD_LOCATION", "\"/main/immich\"")
  , ("DB_DATA_LOCATION", "\"${STACK_PATH}/pgdata\"")
  , ("STACK_PATH", "\"/etc/stacks/immich\"")
  , ("DB_PASSWORD", "config.sops.secrets.dbPassword.path")
  , ("DB_USERNAME", "\"postgres\"")
  , ("DB_DATABASE_NAME", "\"immich\"")
  ]

/-- `_suggest_variable_value` (lines 94-106): the fixed lookup table, with a
quoted lower-cased literal of the name itself as fallback. -/
def suggestVariableValue (varName : String) : String :=
  (List.lookup varName suggestionTable).getD ("\"" ++ lowerString varName ++ "\"")

/-- The variable-definition loop of `_extract_variables` (lines 86-88): each
discovered name is added to `self.variables` only when not already present
(first-seen value wins).  The table is modelled as an assoc list in
insertion order, as a Python dict iterates. -/
def addVariables (vars : List (String × String)) (names : List String) :
    List (String × String) :=
  names.foldl
    (fun vs n =>
      if (List.lookup n vs).isSome then vs else vs ++ [(n, suggestVariableValue n)])
    vars

/-! ## Volume resolution (`_process_volumes`) -/

/-- The external-volume test of `_process_volumes` (line 56):
a dict-shaped configuration whose key `external` holds a truthy value. -/
def isExternalCfg : PyVal → Bool
  | PyVal.dict entries => truthy (dictGet entries "external")
  | _ => false

/-- `_process_volumes` (lines 53-61): external volumes resolve to their own
name, all other declared volumes to `${STACK_PATH}/<name>`. -/
def processVolumes (vols : List (String × PyVal)) : List (String × String) :=
  vols.map (fun p =>
    (p.1, if isExternalCfg p.2 then p.1 else "${STACK_PATH}/" ++ p.1))

/-! ## Dependency extraction (`_extract_dependencies`) -/

/-- The per-service body of `_extract_dependencies` (lines 113-119):
the field `depends_on` is read with an empty-list default, then mapped to keys for a dict,
the list itself for a list, and `[]` for any other shape. -/
def serviceDeps (svc : List (String × PyVal)) : List PyVal :=
  match dictGetD svc "depends_on" (PyVal.list []) with
  | PyVal.dict entries => entries.map (fun p => PyVal.str p.1)
  | PyVal.list items => items
  | _ => []

/-- `_extract_dependencies` (lines 108-123): one entry per service, in
service order. -/
def extractDependencies (services : List (String × List (String × PyVal))) :
    List (String × List PyVal) :=
  services.map (fun p => (p.1, serviceDeps p.2))

/-! ## Port conversion (`_generate_container_config`, lines 186-194) -/

/-- The per-port conversion inside `_generate_container_config`: a string
port containing `:` is prefixed with `127.0.0.1:` unless it already starts
with the literal `127.0.0.1:` or `0.0.0.0:`; any other port is emitted
unchanged. -/
def convertPort (p : String) : String :=
  if ':' ∈ p.data then
    if "127.0.0.1:".data.isPrefixOf p.data || "0.0.0.0:".data.isPrefixOf p.data then p
    else "127.0.0.1:" ++ p
  else p

/-! ## Volume mount conversion (`_convert_volume`) -/

/-- Python `volume.split(':')`. -/
def splitCols : List Char → List (List Char)
  | [] => [[]]
  | c :: rest =>
    if c = ':' then [] :: splitCols rest
    else
      match splitCols rest with
      | h :: t => (c :: h) :: t
      | [] => [[c]]

/-- The named-volume substitution loop of `_convert_volume` (lines 302-305):
the first table entry whose name followed by `:` is a prefix of the mount has
its resolved path substituted for the name (the `str.replace(..., 1)`
occurrence is at position 0 because of the `startswith` guard). -/
def substVol : List (String × String) → String → String
  | [], v => v
  | (n, r) :: rest, v =>
    if (n ++ ":").data.isPrefixOf v.data then
      ⟨r.data ++ ':' :: v.data.drop (n.data.length + 1)⟩
    else substVol rest v

/-- The SELinux-relabel condition of `_convert_volume` (lines 311-313), as
the code tests it: contains `:`, does not end in `:ro` or `:z`, splits into
exactly two parts, and the source part starts with neither `/dev` nor
`/etc`. -/
def relabelCode (l : List Char) : Bool :=
  l.contains ':' && !(":ro".data.isSuffixOf l) && !(":z".data.isSuffixOf l) &&
    (match splitCols l with
     | [a, _] => !("/dev".data.isPrefixOf a) && !("/etc".data.isPrefixOf a)
     | _ => false)

/-- The same condition as the specification states it: exactly two
colon-delimited parts whose source is not `/dev`- or `/etc`-rooted, and the
mount does not already end in a recognized mode suffix. -/
def relabelSpec (l : List Char) : Bool :=
  match splitCols l with
  | [a, _] =>
    !("/dev".data.isPrefixOf a) && !("/etc".data.isPrefixOf a) &&
      !(":ro".data.isSuffixOf l) && !(":z".data.isSuffixOf l)
  | _ => false

/-- `_convert_volume` (lines 295-316) for string mounts: named-volume
substitution, then placeholder rewriting, then the relabel suffix. -/
def convertVolume (tbl : List (String × String)) (keys : List String)
    (v : String) : String :=
  let v1 := substVol tbl v
  let v2 := replaceEnvVars keys v1
  if relabelCode v2.data then v2 ++ ":z" else v2

/-! ## Environment rendering (`_generate_container_config`, lines 214-224) -/

mutual
/-- Python `str(v)` for the modelled values (the f-string interpolation used
by the renderer): `None`, `True`, `False`, decimal integers, the string
itself, and container reprs. -/
def pyStr : PyVal → String
  | PyVal.none => "None"
  | PyVal.bool true => "True"
  | PyVal.bool false => "False"
  | PyVal.int n => toString n
  | PyVal.str s => s
  | PyVal.list items => "[" ++ pyReprSeq items ++ "]"
  | PyVal.dict entries => "\x7b" ++ pyReprEntries entries ++ "\x7d"

/-- Python `repr(v)` (used for elements inside containers): like `str` but
with strings in single quotes. -/
def pyRepr : PyVal → String
  | PyVal.none => "None"
  | PyVal.bool true => "True"
  | PyVal.bool false => "False"
  | PyVal.int n => toString n
  | PyVal.str s => "\x27" ++ s ++ "\x27"
  | PyVal.list items => "[" ++ pyReprSeq items ++ "]"
  | PyVal.dict entries => "\x7b" ++ pyReprEntries entries ++ "\x7d"

/-- Comma-separated reprs of list elements. -/
def pyReprSeq : List PyVal → String
  | [] => ""
  | [x] => pyRepr x
  | x :: y :: xs => pyRepr x ++ ", " ++ pyReprSeq (y :: xs)

/-- Comma-separated key-and-repr renderings of dict entries. -/
def pyReprEntries : List (String × PyVal) → String
  | [] => ""
  | [(k, v)] => "\x27" ++ k ++ "\x27: " ++ pyRepr v
  | (k, v) :: e :: xs => "\x27" ++ k ++ "\x27: " ++ pyRepr v ++ ", " ++ pyReprEntries (e :: xs)
end

/-- One line of the `environments` block (lines 218-223): a string value is
passed through `_replace_env_vars` before interpolation; any other value is
interpolated with the Python default stringification, without rewriting. -/
def renderEnvEntry (keys : List String) (k : String) (v : PyVal) : String :=
  match v with
  | PyVal.str s => "              " ++ k ++ " = \"" ++ replaceEnvVars keys s ++ "\";"
  | _ => "              " ++ k ++ " = \"" ++ pyStr v ++ "\";"

/-! ## Top-level control flow (`convert`, `main`) -/

/-- Observable outcome of one `main()` run: the process exit code, the
diagnostic printed to stderr (if any), and the file write performed (path
and full content), `Option.none` when no output file is opened. -/
structure RunOutcome where
  exitCode : Nat
  stderrMsg : Option String
  fileWritten : Option (String × String)

/-- `convert` (lines 19-51) with the in-memory work abstracted: `gen` stands
for the parse + assembly of the full output document (`nix_config`), which
either raises (`Except.error`) or yields the complete document.  The output
file is opened and written (lines 47-49) only after `gen` has produced the
whole document, so the write event carries exactly that document. -/
def convertRun (output : Option String) (gen : Except String String) :
    Except String (String × Option (String × String)) :=
  match gen with
  | Except.error e => Except.error e
  | Except.ok doc => Except.ok (doc, output.map (fun o => (o, doc)))

/-- `main` (lines 319-343): the existence check on the input path happens
before any conversion and exits with code 1 and a diagnostic naming the
path; any exception from `convert` is caught, reported and exits with code
1; on success the write (if any) performed by `convert` is the only file
output. -/
def mainRun (inputExists : Bool) (composePath : String)
    (output : Option String) (gen : Except String String) : RunOutcome :=
  if !inputExists then
    { exitCode := 1
    , stderrMsg := Option.some ("Error: " ++ composePath ++ " not found")
    , fileWritten := Option.none }
  else
    match convertRun output gen with
    | Except.error e =>
      { exitCode := 1
      , stderrMsg := Option.some ("Error: " ++ e)
      , fileWritten := Option.none }
    | Except.ok (_, w) =>
      { exitCode := 0, stderrMsg := Option.none, fileWritten := w }

/-! ## Structural lemmas about the regex scanners -/

/-- Inversion of a bare-reference match: the input decomposes as
`${` content `}` rest, and the content (group 1) is non-empty. -/
theorem matchBare_eq_some {l n after : List Char}
    (h : matchBare l = Option.some (n, after)) :
    l = '$' :: '{' :: (n ++ '}' :: after) ∧ n ≠ [] := by
  rw [matchBare.eq_def] at h
  split at h
  · rename_i t
    dsimp only at h
    set c0 := t.takeWhile (fun c => c ≠ '}') with hc0
    by_cases hemp : c0.isEmpty
    · rw [if_pos hemp] at h; exact absurd h (by simp)
    · rw [if_neg hemp] at h
      split at h
      · rename_i after' hdrop
        rw [Option.some.injEq, Prod.mk.injEq] at h
        obtain ⟨h1, h2⟩ := h
        obtain ⟨suf, hsuf⟩ := List.takeWhile_prefix (l := t) (fun c => c ≠ '}')
        rw [← hc0] at hsuf
        have hd2 : t.drop c0.length = suf := by
          rw [← hsuf]; exact List.drop_left c0 suf
        rw [hdrop] at hd2
        have ht : t = c0 ++ '}' :: after' := by rw [← hsuf, ← hd2]
        refine ⟨by rw [ht, h1, h2], ?_⟩
        rw [← h1]
        exact fun hn => hemp (hn ▸ rfl)
      · exact absurd h (by simp)
  · exact absurd h (by simp)

/-- A bare-reference match consumes at least four characters. -/
theorem matchBare_length {l n after : List Char}
    (h : matchBare l = Option.some (n, after)) :
    after.length + 4 ≤ l.length := by
  obtain ⟨hl, hn⟩ := matchBare_eq_some h
  have : n.length ≥ 1 := by
    cases n with
    | nil => exact absurd rfl hn
    | cons a b => simp
  subst hl
  simp [List.length_append]
  omega

/-- The bare-reference pass replaces every match by itself, so it is the
identity on every string (given enough fuel). -/
theorem sub2F_eq_id (keys : List String) :
    ∀ fuel l, l.length ≤ fuel → sub2F keys fuel l = l := by
  intro fuel
  induction fuel with
  | zero =>
    intro l hl
    have : l = [] := List.eq_nil_of_length_eq_zero (Nat.le_zero.mp hl)
    subst this; rfl
  | succ fuel ih =>
    intro l hl
    cases l with
    | nil => rfl
    | cons c rest =>
      have hstep : sub2F keys (fuel + 1) (c :: rest) =
          match matchBare (c :: rest) with
          | Option.some (name, after) => replBare keys name ++ sub2F keys fuel after
          | Option.none => c :: sub2F keys fuel rest := rfl
      rw [hstep]
      cases hm : matchBare (c :: rest) with
      | none =>
        have hr : rest.length ≤ fuel := by
          rw [List.length_cons] at hl; omega
        simp [ih rest hr]
      | some pr =>
        obtain ⟨name, after⟩ := pr
        obtain ⟨hl2, hn⟩ := matchBare_eq_some hm
        have hlen := matchBare_length hm
        have hafter : after.length ≤ fuel := by
          rw [List.length_cons] at hl hlen; omega
        simp only [replBare, ite_self]
        rw [ih after hafter, hl2]
        simp

/-- If the with-default pattern matches nowhere, the with-default pass
leaves the text unchanged (for any fuel). -/
theorem sub1F_eq_id_of_no_def (keys : List String) :
    ∀ fuel l, hasDefMatch l = false → sub1F keys fuel l = l := by
  intro fuel
  induction fuel with
  | zero => intro l _; cases l <;> rfl
  | succ fuel ih =>
    intro l hl
    cases l with
    | nil => rfl
    | cons c rest =>
      rw [hasDefMatch, Bool.or_eq_false_iff] at hl
      obtain ⟨h1, h2⟩ := hl
      have hstep : sub1F keys (fuel + 1) (c :: rest) =
          match matchDef (c :: rest) with
          | Option.some (g1, g2, after) => replDef keys g1 g2 ++ sub1F keys fuel after
          | Option.none => c :: sub1F keys fuel rest := rfl
      rw [hstep]
      cases hm : matchDef (c :: rest) with
      | none => rw [ih rest h2]
      | some x => rw [hm] at h1; simp at h1

/-- One-step unfolding of `splitDef` on a cons cell. -/
theorem splitDef_cons (c : Char) (rest : List Char) :
    splitDef (c :: rest) =
      match splitDef rest with
      | Option.some (g1, g2) => Option.some (c :: g1, g2)
      | Option.none =>
        if c = ':' then
          match rest with
          | '-' :: g2 => if g2.isEmpty then Option.none else Option.some ([], g2)
          | _ => Option.none
        else Option.none := rfl

/-- A colon-free text admits no greedy default split. -/
theorem splitDef_eq_none_of_no_colon :
    ∀ {l : List Char}, ':' ∉ l → splitDef l = Option.none := by
  intro l
  induction l with
  | nil => intro _; rfl
  | cons c rest ih =>
    intro h
    have hc : c ≠ ':' := fun hc => h (hc ▸ List.mem_cons_self c rest)
    have hr : ':' ∉ rest := fun hr => h (List.mem_cons_of_mem c hr)
    rw [splitDef_cons, ih hr, if_neg (fun hcc => hc hcc)]

/-- A successful greedy default split implies the text contains a colon. -/
theorem splitDef_colon :
    ∀ {l : List Char} {g1 g2 : List Char},
      splitDef l = Option.some (g1, g2) → ':' ∈ l := by
  intro l
  induction l with
  | nil => intro g1 g2 h; exact absurd h (by simp [splitDef])
  | cons c rest ih =>
    intro g1 g2 h
    rw [splitDef_cons] at h
    cases hs : splitDef rest with
    | some pr => exact List.mem_cons_of_mem c (ih hs)
    | none =>
      rw [hs] at h
      dsimp only at h
      by_cases hc : c = ':'
      · exact hc ▸ List.mem_cons_self c rest
      · rw [if_neg hc] at h; exact absurd h (by simp)

/-- A with-default match implies the input contains a colon. -/
theorem matchDef_colon {l : List Char} {g1 g2 after : List Char}
    (h : matchDef l = Option.some (g1, g2, after)) : ':' ∈ l := by
  rw [matchDef.eq_def] at h
  split at h
  · rename_i t
    dsimp only at h
    split at h
    · cases hs : splitDef (t.takeWhile (fun c => c ≠ '}')) with
      | none => rw [hs] at h; exact absurd h (by simp)
      | some pr =>
        have hmem : ':' ∈ t.takeWhile (fun c => c ≠ '}') := by
          obtain ⟨a, b⟩ := pr
          exact splitDef_colon hs
        have : ':' ∈ t := (List.takeWhile_prefix _).subset hmem
        exact List.mem_cons_of_mem _ (List.mem_cons_of_mem _ this)
    · exact absurd h (by simp)
  · exact absurd h (by simp)

/-- The with-default pass leaves any colon-free text unchanged. -/
theorem sub1F_eq_id_of_no_colon (keys : List String) :
    ∀ fuel l, ':' ∉ l → sub1F keys fuel l = l := by
  intro fuel
  induction fuel with
  | zero => intro l _; cases l <;> rfl
  | succ fuel ih =>
    intro l hl
    cases l with
    | nil => rfl
    | cons c rest =>
      have hstep : sub1F keys (fuel + 1) (c :: rest) =
          match matchDef (c :: rest) with
          | Option.some (g1, g2, after) => replDef keys g1 g2 ++ sub1F keys fuel after
          | Option.none => c :: sub1F keys fuel rest := rfl
      rw [hstep]
      cases hm : matchDef (c :: rest) with
      | none =>
        rw [ih rest (fun hr => hl (List.mem_cons_of_mem c hr))]
      | some x =>
        obtain ⟨a, b, cc⟩ := x
        exact absurd (matchDef_colon hm) hl

/-- `takeWhile` over a block of satisfying characters followed by a failing
one returns exactly the block. -/
theorem takeWhile_block {p : Char → Bool} :
    ∀ (l1 : List Char) {b : Char} (l2 : List Char),
      (∀ a ∈ l1, p a = true) → p b = false →
      List.takeWhile p (l1 ++ b :: l2) = l1 := by
  intro l1
  induction l1 with
  | nil => intro b l2 _ hb; simp [List.takeWhile_cons, hb]
  | cons a t ih =>
    intro b l2 hall hb
    have ha : p a = true := hall a (List.mem_cons_self a t)
    simp only [List.cons_append, List.takeWhile_cons, ha, if_true]
    rw [ih l2 (fun x hx => hall x (List.mem_cons_of_mem a hx)) hb]

/-- The greedy split of `name ++ ":-" ++ dflt` is `(name, dflt)` whenever
the name is non-empty and the default text is non-empty and colon-free (the
rightmost admissible `:-` is then the explicit separator). -/
theorem splitDef_append :
    ∀ (name : List Char) {dflt : List Char},
      name ≠ [] → dflt ≠ [] → ':' ∉ dflt →
      splitDef (name ++ ':' :: '-' :: dflt) = Option.some (name, dflt) := by
  intro name
  induction name with
  | nil => intro dflt h _ _; exact absurd rfl h
  | cons x xs ih =>
    intro dflt _ hd hdc
    cases xs with
    | nil =>
      have h0 : splitDef dflt = Option.none := splitDef_eq_none_of_no_colon hdc
      have h1 : splitDef ('-' :: dflt) = Option.none := by
        rw [splitDef_cons, h0]
        simp
      have h2 : splitDef (':' :: '-' :: dflt) = Option.some ([], dflt) := by
        rw [splitDef_cons, h1]
        dsimp only
        rw [if_pos rfl]
        simp [List.isEmpty_iff, hd]
      show splitDef (x :: ':' :: '-' :: dflt) = Option.some ([x], dflt)
      rw [splitDef_cons, h2]
    | cons y ys =>
      have hih := ih (by simp) hd hdc
      show splitDef (x :: ((y :: ys) ++ ':' :: '-' :: dflt)) = _
      rw [splitDef_cons, hih]

/-- One-step unfolding of `matchDef` on an input starting with `${`. -/
theorem matchDef_dollar (t : List Char) :
    matchDef ('$' :: '{' :: t) =
      (match t.drop (t.takeWhile (fun c => c ≠ '}')).length with
       | '}' :: after =>
         (match splitDef (t.takeWhile (fun c => c ≠ '}')) with
          | Option.some (g1, g2) =>
            if g1.isEmpty then Option.none else Option.some (g1, g2, after)
          | Option.none => Option.none)
       | _ => Option.none) := rfl

/-- Forward evaluation of the with-default matcher on a well-formed
reference `${name:-dflt}` followed by arbitrary text. -/
theorem matchDef_build {name dflt after : List Char}
    (hn : name ≠ []) (hd : dflt ≠ [])
    (hnb : '}' ∉ name) (hdb : '}' ∉ dflt) (hdc : ':' ∉ dflt) :
    matchDef ('$' :: '{' :: (name ++ ':' :: '-' :: (dflt ++ '}' :: after)))
      = Option.some (name, dflt, after) := by
  have hassoc : name ++ ':' :: '-' :: (dflt ++ '}' :: after)
      = (name ++ ':' :: '-' :: dflt) ++ '}' :: after := by
    simp [List.append_assoc]
  have hall : ∀ a ∈ name ++ ':' :: '-' :: dflt,
      (fun c => decide (c ≠ '}')) a = true := by
    intro a ha
    simp only [List.mem_append, List.mem_cons] at ha
    simp only [decide_eq_true_eq]
    rcases ha with h | h | h | h
    · exact fun he => hnb (he ▸ h)
    · subst h; decide
    · subst h; decide
    · exact fun he => hdb (he ▸ h)
  have htake : List.takeWhile (fun c => c ≠ '}')
      (name ++ ':' :: '-' :: (dflt ++ '}' :: after)) = name ++ ':' :: '-' :: dflt := by
    rw [hassoc]
    exact takeWhile_block _ after hall (by decide)
  have hdrop : List.drop (name ++ ':' :: '-' :: dflt).length
      (name ++ ':' :: '-' :: (dflt ++ '}' :: after)) = '}' :: after := by
    rw [hassoc]
    exact List.drop_left _ _
  rw [matchDef_dollar, htake, hdrop]
  split
  · rename_i aft heq
    obtain ⟨rfl⟩ : after = aft := by injection heq
    rw [splitDef_append name hn hd hdc]
    dsimp only
    rw [if_neg (by simp [List.isEmpty_iff, hn])]
  · rename_i hne
    exact absurd (hne after rfl) (fun f => f)

/-- The with-default pass on the empty text. -/
theorem sub1F_nil (keys : List String) (fuel : Nat) : sub1F keys fuel [] = [] := by
  cases fuel <;> rfl

/-- One-step unfolding of the with-default pass. -/
theorem sub1F_cons (keys : List String) (fuel : Nat) (c : Char) (rest : List Char) :
    sub1F keys (fuel + 1) (c :: rest) =
      match matchDef (c :: rest) with
      | Option.some (g1, g2, after) => replDef keys g1 g2 ++ sub1F keys fuel after
      | Option.none => c :: sub1F keys fuel rest := rfl

/-- When the whole input is a single with-default reference, the pass
produces exactly the replacement text. -/
theorem sub1F_single (keys : List String) (fuel : Nat) {c : Char} {rest g1 g2 : List Char}
    (h : matchDef (c :: rest) = Option.some (g1, g2, [])) :
    sub1F keys (fuel + 1) (c :: rest) = replDef keys g1 g2 := by
  rw [sub1F_cons, h]
  dsimp only
  rw [sub1F_nil, List.append_nil]

/-! ## Claim theorems -/

/-- C1: the specification states that variable discovery collects only the
placeholder *name*, with any `:-default` clause ignored — so scanning
`${FOO:-bar}` should discover `FOO`.  The regex in the code
`\$\{([^}]+)(?::-[^}]*)?\}` does not do this: the greedy name group
consumes the default clause (the optional stripping group can only ever
match empty), so the discoverer collects the string `FOO:-bar` and never
`FOO`.  This theorem evaluates the embedded discoverer at the failing
input. -/
theorem find_env_vars_keeps_default_clause :
    findEnvVars "${FOO:-bar}" = ["FOO:-bar"]
      ∧ "FOO" ∉ findEnvVars "${FOO:-bar}" := by
  decide

/-- C2: `_replace_env_vars` resolves with-default references first (pass 1)
and bare references second (pass 2), and for each reference: a name present
in the Variable Table is replaced by the normalized `${NAME}` (default
dropped); a missing name with a default is replaced by the literal default
text; a missing name without a default stays a normalized bare reference,
and no error is possible (the function is total).  Stated for a single
well-formed reference (non-empty name and default, no closing brace inside
either, colon-free name and default) over an arbitrary key set. -/
theorem replace_env_vars_resolution (keys : List String) (name dflt : List Char)
    (hn : name ≠ []) (hd : dflt ≠ [])
    (hnb : '}' ∉ name) (hnc : ':' ∉ name)
    (hdb : '}' ∉ dflt) (hdc : ':' ∉ dflt) :
    replaceEnvVars keys ⟨'$' :: '{' :: (name ++ ':' :: '-' :: (dflt ++ ['}']))⟩
        = (if (⟨name⟩ : String) ∈ keys
           then (⟨'$' :: '{' :: (name ++ ['}'])⟩ : String)
           else (⟨dflt⟩ : String))
      ∧ replaceEnvVars keys ⟨'$' :: '{' :: (name ++ ['}'])⟩
        = ⟨'$' :: '{' :: (name ++ ['}'])⟩ := by
  constructor
  · have hmatch : matchDef ('$' :: '{' :: (name ++ ':' :: '-' :: (dflt ++ ['}'])))
        = Option.some (name, dflt, []) := matchDef_build hn hd hnb hdb hdc
    have e1 : sub1F keys
        (('$' :: '{' :: (name ++ ':' :: '-' :: (dflt ++ ['}']))).length)
        ('$' :: '{' :: (name ++ ':' :: '-' :: (dflt ++ ['}'])))
        = replDef keys name dflt := by
      rw [List.length_cons]
      exact sub1F_single keys _ hmatch
    simp only [replaceEnvVars]
    rw [e1, sub2F_eq_id keys _ _ (Nat.le_refl _)]
    by_cases hk : (⟨name⟩ : String) ∈ keys
    · rw [if_pos hk]
      simp only [replDef, if_pos hk]
    · rw [if_neg hk]
      simp only [replDef, if_neg hk]
  · have hc' : ':' ∉ ('$' :: '{' :: (name ++ ['}'])) := by
      intro h
      simp only [List.mem_cons, List.mem_append, List.mem_singleton] at h
      rcases h with h | h | h | h
      · exact absurd h (by decide)
      · exact absurd h (by decide)
      · exact hnc h
      · exact absurd h (by decide)
    have e1 : sub1F keys (('$' :: '{' :: (name ++ ['}'])).length)
        ('$' :: '{' :: (name ++ ['}'])) = '$' :: '{' :: (name ++ ['}']) :=
      sub1F_eq_id_of_no_colon keys _ _ hc'
    simp only [replaceEnvVars]
    rw [e1, sub2F_eq_id keys _ _ (Nat.le_refl _)]

/-- Witness for C2 at a concrete reference: with the table `{FOO}`, the
reference `${FOO:-bar}` normalizes to `${FOO}` and the bare `${FOO}` stays
itself. -/
theorem replace_env_vars_resolution_witness :
    (replaceEnvVars ["FOO"]
          ⟨'$' :: '{' :: (['F', 'O', 'O'] ++ ':' :: '-' :: (['b', 'a', 'r'] ++ ['}']))⟩
        = (if (⟨['F', 'O', 'O']⟩ : String) ∈ ["FOO"]
           then (⟨'$' :: '{' :: (['F', 'O', 'O'] ++ ['}'])⟩ : String)
           else (⟨['b', 'a', 'r']⟩ : String)))
      ∧ replaceEnvVars ["FOO"] ⟨'$' :: '{' :: (['F', 'O', 'O'] ++ ['}'])⟩
        = ⟨'$' :: '{' :: (['F', 'O', 'O'] ++ ['}'])⟩ :=
  replace_env_vars_resolution ["FOO"] ['F', 'O', 'O'] ['b', 'a', 'r']
    (by decide) (by decide) (by decide) (by decide) (by decide) (by decide)

/-- C3 counterexample: rewriting is *not* idempotent for every string.  With
an empty table, the input `${A:-$}{B:-c}` rewrites to `${B:-c}` (the
replaced default `$` recombines with the following text into a new
with-default reference), and a second application rewrites that to `c`. -/
theorem replace_env_vars_not_idempotent :
    ¬ (replaceEnvVars []
          (replaceEnvVars []
            ⟨['$', '{', 'A', ':', '-', '$', '}', '{', 'B', ':', '-', 'c', '}']⟩)
        = replaceEnvVars []
            ⟨['$', '{', 'A', ':', '-', '$', '}', '{', 'B', ':', '-', 'c', '}']⟩) := by
  decide

/-- C3 amended: placeholder rewriting is idempotent whenever its output
contains no with-default reference (the bare-reference pass is always the
identity, so only a with-default pattern surviving into — or created in —
the output can be rewritten again). -/
theorem replace_env_vars_idempotent_of_no_def (keys : List String) (s : String)
    (h : hasDefMatch (replaceEnvVars keys s).data = false) :
    replaceEnvVars keys (replaceEnvVars keys s) = replaceEnvVars keys s := by
  set t := replaceEnvVars keys s with ht
  have h1 : sub1F keys t.data.length t.data = t.data :=
    sub1F_eq_id_of_no_def keys _ _ h
  show replaceEnvVars keys t = t
  simp only [replaceEnvVars]
  rw [h1, sub2F_eq_id keys _ _ (Nat.le_refl _)]

/-- Witness for the amended C3: the already-normalized output of rewriting
`${A}` contains no with-default reference, and rewriting it again leaves it
unchanged. -/
theorem replace_env_vars_idempotent_witness :
    hasDefMatch (replaceEnvVars [] "${A}").data = false
      ∧ replaceEnvVars [] (replaceEnvVars [] "${A}") = replaceEnvVars [] "${A}" :=
  ⟨by decide, replace_env_vars_idempotent_of_no_def [] "${A}" (by decide)⟩

/-- C4 counterexample: the claim says a port already carrying *any* explicit
bind address is rendered unchanged, naming `192.168.1.1:8080:80` as an
example.  The code only recognizes the two literal prefixes `127.0.0.1:`
and `0.0.0.0:`, so that port is prefixed again. -/
theorem convert_port_other_bind_address_rewritten :
    convertPort "192.168.1.1:8080:80" = "127.0.0.1:192.168.1.1:8080:80"
      ∧ convertPort "192.168.1.1:8080:80" ≠ "192.168.1.1:8080:80" := by
  decide

/-- C4 amended: a string port containing `:` is left unchanged exactly when
it starts with the literal `127.0.0.1:` or `0.0.0.0:`; every other such
port (including one with a different explicit bind address) is prefixed
with `127.0.0.1:`, and a port without `:` passes through unchanged.
`8080:80` renders as `127.0.0.1:8080:80` as the positive example of the claim
states. -/
theorem convert_port_loopback (p : String) :
    convertPort "8080:80" = "127.0.0.1:8080:80"
      ∧ ("127.0.0.1:".data.isPrefixOf p.data = true
            ∨ "0.0.0.0:".data.isPrefixOf p.data = true → convertPort p = p)
      ∧ (':' ∈ p.data → "127.0.0.1:".data.isPrefixOf p.data = false →
          "0.0.0.0:".data.isPrefixOf p.data = false →
          convertPort p = "127.0.0.1:" ++ p)
      ∧ (':' ∉ p.data → convertPort p = p) := by
  refine ⟨by decide, ?_, ?_, ?_⟩
  · intro h
    have hmem : ':' ∈ p.data := by
      rcases h with h | h
      · exact (List.isPrefixOf_iff_prefix.mp h).subset (by decide)
      · exact (List.isPrefixOf_iff_prefix.mp h).subset (by decide)
    simp only [convertPort, if_pos hmem]
    rw [if_pos (Bool.or_eq_true _ _ ▸ h)]
  · intro hmem h1 h2
    simp only [convertPort, if_pos hmem, h1, h2, Bool.or_false, Bool.false_eq_true,
      if_false]
  · intro hmem
    simp only [convertPort, if_neg hmem]

/-- Witness for the amended C4: `0.0.0.0:8080:80` is left unchanged, and a
colon-free port `web` passes through. -/
theorem convert_port_loopback_witness :
    convertPort "0.0.0.0:8080:80" = "0.0.0.0:8080:80"
      ∧ convertPort "web" = "web" :=
  ⟨(convert_port_loopback "0.0.0.0:8080:80").2.1 (Or.inr (by decide)),
   (convert_port_loopback "web").2.2.2 (by decide)⟩

/-- One-step unfolding of `splitCols` on a cons cell. -/
theorem splitCols_cons (c : Char) (rest : List Char) :
    splitCols (c :: rest) =
      if c = ':' then [] :: splitCols rest
      else
        match splitCols rest with
        | h :: t => (c :: h) :: t
        | [] => [[c]] := rfl

/-- A colon-free mount splits into the single part that is the whole text. -/
theorem splitCols_no_colon :
    ∀ {l : List Char}, l.contains ':' = false → splitCols l = [l] := by
  intro l
  induction l with
  | nil => intro _; rfl
  | cons c rest ih =>
    intro h
    rw [List.contains_cons, Bool.or_eq_false_iff] at h
    obtain ⟨h1, h2⟩ := h
    have hc : ¬ c = ':' := by
      intro hc
      rw [hc] at h1
      simp at h1
    rw [splitCols_cons, if_neg hc, ih h2]

/-- The relabel condition as the code tests it coincides with the condition
as the specification words it. -/
theorem relabelCode_eq_spec (l : List Char) : relabelCode l = relabelSpec l := by
  by_cases hc : l.contains ':'
  · simp only [relabelCode, relabelSpec, hc, Bool.true_and]
    cases hsp : splitCols l with
    | nil => simp
    | cons a t =>
      cases t with
      | nil => simp
      | cons b t2 =>
        cases t2 with
        | nil =>
          simp only []
          cases hx : (":ro".data.isSuffixOf l) <;>
            cases hy : (":z".data.isSuffixOf l) <;>
              cases hz : ("/dev".data.isPrefixOf a) <;>
                cases hw : ("/etc".data.isPrefixOf a) <;> rfl
        | cons d t3 => simp
  · have hcf : l.contains ':' = false := by
      revert hc; cases (l.contains ':') <;> simp
    simp [relabelCode, relabelSpec, hcf, splitCols_no_colon hcf]

/-- C5: after named-volume substitution and placeholder rewriting, the
relabel suffix `:z` is appended exactly when the condition of the specification
holds: the mount has exactly two colon-delimited parts, the source part
starts with neither `/dev` nor `/etc`, and the mount does not already end
in `:ro` or `:z`.  In particular `data:/var/lib/app` with `data` a declared
managed volume renders as `${STACK_PATH}/data:/var/lib/app:z`. -/
theorem convert_volume_relabel :
    (∀ (tbl : List (String × String)) (keys : List String) (v : String),
        convertVolume tbl keys v =
          (if relabelSpec (replaceEnvVars keys (substVol tbl v)).data
           then replaceEnvVars keys (substVol tbl v) ++ ":z"
           else replaceEnvVars keys (substVol tbl v)))
      ∧ convertVolume (processVolumes [("data", PyVal.none)]) [] "data:/var/lib/app"
        = "${STACK_PATH}/data:/var/lib/app:z" := by
  constructor
  · intro tbl keys v
    simp only [convertVolume, relabelCode_eq_spec]
  · decide

/-- C6: the Volume Resolution Table maps a volume whose configuration is
explicitly marked external to its own name (identity), and every other
declared volume to `${STACK_PATH}/<name>`; an absent/empty declarations
mapping yields an empty table, and no error is possible (the function is
total). -/
theorem process_volumes_resolution :
    processVolumes [] = []
      ∧ ∀ (vols : List (String × PyVal)) (n : String) (c : PyVal),
          (n, c) ∈ vols →
            (isExternalCfg c = true → (n, n) ∈ processVolumes vols)
            ∧ (isExternalCfg c = false →
                (n, "${STACK_PATH}/" ++ n) ∈ processVolumes vols) := by
  refine ⟨rfl, ?_⟩
  intro vols n c hmem
  constructor
  · intro hext
    have h := List.mem_map_of_mem
      (f := fun p : String × PyVal =>
        (p.1, if isExternalCfg p.2 then p.1 else "${STACK_PATH}/" ++ p.1)) hmem
    simpa [processVolumes, hext] using h
  · intro hext
    have h := List.mem_map_of_mem
      (f := fun p : String × PyVal =>
        (p.1, if isExternalCfg p.2 then p.1 else "${STACK_PATH}/" ++ p.1)) hmem
    simpa [processVolumes, hext] using h

/-- Witness for C6: an external volume `ext` resolves to itself, and a
managed volume `data` (declared with a null configuration) resolves to
`${STACK_PATH}/data`. -/
theorem process_volumes_resolution_witness :
    ("ext", "ext") ∈ processVolumes
        [("ext", PyVal.dict [("external", PyVal.bool true)]), ("data", PyVal.none)]
      ∧ ("data", "${STACK_PATH}/data") ∈ processVolumes
        [("ext", PyVal.dict [("external", PyVal.bool true)]), ("data", PyVal.none)] :=
  ⟨(process_volumes_resolution.2 _ "ext" (PyVal.dict [("external", PyVal.bool true)])
      (List.mem_cons_self _ _)).1 rfl,
   (process_volumes_resolution.2 _ "data" PyVal.none
      (List.mem_cons_of_mem _ (List.mem_cons_self _ _))).2 rfl⟩

/-- The dependency list as §4.4 of the specification words it: the key list
of a mapping (per-dependency conditions ignored), a list verbatim, and the
explicit empty list for an absent field or any other shape. -/
def specDeps (svc : List (String × PyVal)) : List PyVal :=
  match List.lookup "depends_on" svc with
  | Option.some (PyVal.dict entries) => entries.map (fun p => PyVal.str p.1)
  | Option.some (PyVal.list items) => items
  | _ => []

/-- C7: dependency extraction produces exactly one entry per service, in
service order, and the list of each entry agrees with the specification case
analysis: mapping → key list (conditions ignored), list → verbatim, absent
or other shape → explicit empty list.  The three concrete cases of the
spec test bullet are evaluated as well. -/
theorem extract_dependencies_spec :
    (∀ services, extractDependencies services
        = services.map (fun p => (p.1, specDeps p.2)))
      ∧ extractDependencies [("s", [("depends_on",
            PyVal.dict [("a", PyVal.dict []), ("b", PyVal.dict [])])])]
        = [("s", [PyVal.str "a", PyVal.str "b"])]
      ∧ extractDependencies [("s", [("depends_on",
            PyVal.list [PyVal.str "a", PyVal.str "b"])])]
        = [("s", [PyVal.str "a", PyVal.str "b"])]
      ∧ extractDependencies [("s", [("image", PyVal.str "nginx")])]
        = [("s", [])] := by
  refine ⟨?_, rfl, rfl, rfl⟩
  intro services
  unfold extractDependencies
  apply List.map_congr_left
  intro p _
  congr 1
  unfold serviceDeps specDeps dictGetD
  cases h : List.lookup "depends_on" p.2 with
  | none => rfl
  | some v => cases v <;> rfl

/-- Looking up a key found in the left part of an appended table ignores the
right part. -/
theorem lookup_append_of_some {n v : String} :
    ∀ {l1 l2 : List (String × String)},
      List.lookup n l1 = Option.some v → List.lookup n (l1 ++ l2) = Option.some v := by
  intro l1
  induction l1 with
  | nil => intro l2 h; rw [List.lookup_nil] at h; exact absurd h (by simp)
  | cons p t ih =>
    intro l2 h
    obtain ⟨k, b⟩ := p
    rw [List.cons_append, List.lookup_cons]
    rw [List.lookup_cons] at h
    cases hk : (n == k) with
    | true => simp only [hk] at h ⊢; exact h
    | false => simp only [hk] at h ⊢; exact ih h

/-- Looking up a key absent from the left part of an appended table falls
through to the right part. -/
theorem lookup_append_of_none {n : String} :
    ∀ {l1 l2 : List (String × String)},
      List.lookup n l1 = Option.none → List.lookup n (l1 ++ l2) = List.lookup n l2 := by
  intro l1
  induction l1 with
  | nil => intro l2 _; rfl
  | cons p t ih =>
    intro l2 h
    obtain ⟨k, b⟩ := p
    rw [List.cons_append, List.lookup_cons]
    rw [List.lookup_cons] at h
    cases hk : (n == k) with
    | true => simp only [hk] at h; exact absurd h (by simp)
    | false => simp only [hk] at h ⊢; exact ih h

/-- `addVariables` on an empty discovery set. -/
theorem addVariables_nil (vars : List (String × String)) :
    addVariables vars [] = vars := rfl

/-- One discovery step of `addVariables`. -/
theorem addVariables_cons (vars : List (String × String)) (m : String)
    (names : List String) :
    addVariables vars (m :: names) =
      addVariables
        (if (List.lookup m vars).isSome then vars
         else vars ++ [(m, suggestVariableValue m)]) names := rfl

/-- A name already present in the table keeps its value through any further
discovery: first-seen value wins, no overwrite. -/
theorem addVariables_keeps {n v : String} :
    ∀ (names : List String) (vars : List (String × String)),
      List.lookup n vars = Option.some v →
      List.lookup n (addVariables vars names) = Option.some v := by
  intro names
  induction names with
  | nil => intro vars h; exact h
  | cons m rest ih =>
    intro vars h
    rw [addVariables_cons]
    by_cases hm : (List.lookup m vars).isSome
    · rw [if_pos hm]; exact ih vars h
    · rw [if_neg hm]; exact ih _ (lookup_append_of_some h)

/-- A newly discovered name ends up mapped to its suggested value. -/
theorem addVariables_adds {n : String} :
    ∀ (names : List String) (vars : List (String × String)),
      List.lookup n vars = Option.none → n ∈ names →
      List.lookup n (addVariables vars names)
        = Option.some (suggestVariableValue n) := by
  intro names
  induction names with
  | nil => intro vars _ hmem; exact absurd hmem (List.not_mem_nil n)
  | cons m rest ih =>
    intro vars h hmem
    rw [addVariables_cons]
    by_cases hnm : n = m
    · subst hnm
      rw [if_neg (by rw [h]; simp)]
      apply addVariables_keeps rest
      rw [lookup_append_of_none h, List.lookup_cons]
      simp
    · have hmem' : n ∈ rest := by
        rcases List.mem_cons.mp hmem with h1 | h1
        · exact absurd h1 hnm
        · exact h1
      by_cases hm : (List.lookup m vars).isSome
      · rw [if_pos hm]; exact ih vars h hmem'
      · rw [if_neg hm]
        apply ih _ _ hmem'
        rw [lookup_append_of_none h, List.lookup_cons]
        have hne : (n == m) = false := beq_eq_false_iff_ne.mpr hnm
        simp only [hne, List.lookup_nil]

/-- C8: throughout one run, a name already in the Variable Table keeps its
value through all later discovery (first-seen wins, never overwritten); a
newly discovered name is mapped to exactly the suggested value computed
from it; and a name absent from the fixed suggestion table, such as
`FOO_BAR`, is suggested as the quoted lower-cased literal of itself. -/
theorem variable_table_first_seen_wins (vars : List (String × String))
    (names : List String) (n v : String) :
    (List.lookup n vars = Option.some v →
      List.lookup n (addVariables vars names) = Option.some v)
    ∧ (List.lookup n vars = Option.none → n ∈ names →
      List.lookup n (addVariables vars names)
        = Option.some (suggestVariableValue n))
    ∧ suggestVariableValue "FOO_BAR" = "\"foo_bar\"" :=
  ⟨addVariables_keeps names vars, addVariables_adds names vars, by decide⟩

/-- Witness for C8: a table already holding `DB_PASSWORD = kept` is not
overwritten when `DB_PASSWORD` is discovered again, and the unknown name
`FOO_BAR` is added with its quoted lower-cased literal. -/
theorem variable_table_first_seen_wins_witness :
    List.lookup "DB_PASSWORD"
        (addVariables [("DB_PASSWORD", "kept")] ["DB_PASSWORD", "FOO_BAR"])
        = Option.some "kept"
      ∧ List.lookup "FOO_BAR"
        (addVariables [("DB_PASSWORD", "kept")] ["DB_PASSWORD", "FOO_BAR"])
        = Option.some "\"foo_bar\"" :=
  ⟨(variable_table_first_seen_wins [("DB_PASSWORD", "kept")]
      ["DB_PASSWORD", "FOO_BAR"] "DB_PASSWORD" "kept").1 (by decide),
   by
    have h := (variable_table_first_seen_wins [("DB_PASSWORD", "kept")]
      ["DB_PASSWORD", "FOO_BAR"] "FOO_BAR" "kept").2.1 (by decide) (by decide)
    rw [h]
    decide⟩

/-- C9: when the input file is missing, the run exits non-zero with a
diagnostic naming the path and writes no output file; when the in-memory
assembly fails, the run exits non-zero and no output file is opened; and
any write that does happen carries exactly the fully assembled document
(the file is opened only after assembly), for any choice of output path. -/
theorem no_partial_output_on_failure (p : String) (out : Option String)
    (gen : Except String String) :
    ((mainRun false p out gen).exitCode ≠ 0
      ∧ (mainRun false p out gen).stderrMsg
          = Option.some ("Error: " ++ p ++ " not found")
      ∧ (mainRun false p out gen).fileWritten = Option.none)
    ∧ (∀ e, gen = Except.error e →
        (mainRun true p out gen).exitCode ≠ 0
        ∧ (mainRun true p out gen).fileWritten = Option.none)
    ∧ (∀ doc w, convertRun out gen = Except.ok (doc, w) →
        gen = Except.ok doc ∧ w = out.map (fun o => (o, doc))) := by
  refine ⟨⟨by simp [mainRun], by simp [mainRun], by simp [mainRun]⟩, ?_, ?_⟩
  · intro e he
    subst he
    exact ⟨by simp [mainRun, convertRun], by simp [mainRun, convertRun]⟩
  · intro doc w h
    cases gen with
    | error e => exact absurd h (by simp [convertRun])
    | ok d =>
      simp only [convertRun, Except.ok.injEq, Prod.mk.injEq] at h
      obtain ⟨h1, h2⟩ := h
      subst h1
      exact ⟨rfl, h2.symm⟩

/-- Witness for C9: a missing `docker-compose.yml` yields exit code 1, the
diagnostic naming the path, and no write; a failed conversion with an
output path selected also writes nothing. -/
theorem no_partial_output_on_failure_witness :
    (mainRun false "docker-compose.yml" (Option.some "out.nix")
        (Except.ok "doc")).exitCode ≠ 0
      ∧ (mainRun false "docker-compose.yml" (Option.some "out.nix")
          (Except.ok "doc")).stderrMsg
        = Option.some ("Error: " ++ "docker-compose.yml" ++ " not found")
      ∧ (mainRun true "docker-compose.yml" (Option.some "out.nix")
          (Except.error "Empty or invalid compose file")).fileWritten
        = Option.none :=
  ⟨(no_partial_output_on_failure "docker-compose.yml" (Option.some "out.nix")
      (Except.ok "doc")).1.1,
   (no_partial_output_on_failure "docker-compose.yml" (Option.some "out.nix")
      (Except.ok "doc")).1.2.1,
   ((no_partial_output_on_failure "docker-compose.yml" (Option.some "out.nix")
      (Except.error "Empty or invalid compose file")).2.1
      "Empty or invalid compose file" rfl).2⟩

/-- C10: an environment value that is not a string is emitted inside double
quotes using the Python default stringification (`True`, `False`, `None`,
decimal integers) and is not passed through the placeholder rewriter — its
rendering is independent of the Variable Table — while a string value is
rewritten before emission. -/
theorem env_value_stringification (keys keys' : List String) (k : String) :
    renderEnvEntry keys k (PyVal.bool true)
        = "              " ++ k ++ " = \"True\";"
      ∧ renderEnvEntry keys k (PyVal.bool false)
        = "              " ++ k ++ " = \"False\";"
      ∧ renderEnvEntry keys k PyVal.none
        = "              " ++ k ++ " = \"None\";"
      ∧ (∀ n : Int, renderEnvEntry keys k (PyVal.int n)
        = "              " ++ k ++ " = \"" ++ toString n ++ "\";")
      ∧ (∀ s : String, renderEnvEntry keys k (PyVal.str s)
        = "              " ++ k ++ " = \"" ++ replaceEnvVars keys s ++ "\";")
      ∧ (∀ v : PyVal, (∀ s, v ≠ PyVal.str s) →
          renderEnvEntry keys k v = renderEnvEntry keys' k v) := by
  refine ⟨?_, ?_, ?_, ?_, ?_, ?_⟩
  · simp only [renderEnvEntry, pyStr, String.append_assoc]
    congr 1
  · simp only [renderEnvEntry, pyStr, String.append_assoc]
    congr 1
  · simp only [renderEnvEntry, pyStr, String.append_assoc]
    congr 1
  · intro n; simp [renderEnvEntry, pyStr]
  · intro s; simp [renderEnvEntry]
  · intro v hv
    cases v with
    | str s => exact absurd rfl (hv s)
    | none => rfl
    | bool b => rfl
    | int n => rfl
    | list items => rfl
    | dict entries => rfl

/-- Witness for C10: a non-string value renders identically under two
different tables (it never passes through the rewriter). -/
theorem env_value_stringification_witness :
    renderEnvEntry ["DB_PASSWORD"] "DB_SKIP_MIGRATIONS" (PyVal.bool true)
      = renderEnvEntry [] "DB_SKIP_MIGRATIONS" (PyVal.bool true) :=
  (env_value_stringification ["DB_PASSWORD"] [] "DB_SKIP_MIGRATIONS").2.2.2.2.2
    (PyVal.bool true) (fun _ h => PyVal.noConfusion h)
